import Mathlib

/-!
Verification of the document ingestion / retrieval pipeline specification
against the Alchemist repository (Angular frontend plus docker-described
FastAPI backend). Frontend components are embedded directly from the
TypeScript source; backend operations absent from the source tree are
modelled from the specification and marked as such in their doc comments.
-/

namespace Alchemist

/-! ## Upload component (document-upload.component.ts)

Embedding of `FileStatus`, `handleFiles`, `uploadNextFile`,
`allFilesProcessed` and the completion message. -/

/-- `enum FileStatus` of document-upload.component.ts. -/
inductive FileStatus
  | ready
  | processing
  | uploaded
  | failed
  deriving DecidableEq, Repr

/-- The part of a JS `File` object that `handleFiles` inspects: name and size. -/
structure FileMeta where
  name : String
  size : Nat
  deriving DecidableEq, Repr

/-- `interface FileItem` of document-upload.component.ts. -/
structure FileItem where
  file : FileMeta
  status : FileStatus
  progress : Nat
  message : Option String := none
  deriving DecidableEq, Repr

/-- The 200MB size limit checked in `handleFiles`. -/
def maxFileSize : Nat := 200 * 1024 * 1024

/-- `const allowedExtensions = ['pdf', 'txt', 'doc', 'docx', 'csv']`. -/
def allowedExtensions : List String := ["pdf", "txt", "doc", "docx", "csv"]

/-- JS `String.prototype.split(sep)` on the character sequence: every
occurrence of the separator starts a new field, and an empty input yields
one empty field. -/
def splitOnChar (sep : Char) : List Char → List (List Char)
  | [] => [[]]
  | c :: cs =>
    match splitOnChar sep cs with
    | [] => [[]]
    | h :: t => if c = sep then [] :: h :: t else (c :: h) :: t

/-- `file.name.split('.').pop()?.toLowerCase() || ''`. -/
def extOf (name : String) : String :=
  ⟨(((splitOnChar '.' name.data).getLast?).getD []).map Char.toLower⟩

/-- Snackbar text for an oversized file. -/
def fileSizeNotice (name : String) : String :=
  "File " ++ name ++ " exceeds the 200MB limit."

/-- Snackbar text for a disallowed extension. -/
def fileTypeNotice (name : String) : String :=
  "File " ++ name ++ " is not an allowed file type."

/-- One iteration of the `forEach` body in `handleFiles`: the state is the
selected-file list plus the snackbar notifications issued so far. -/
def handleFile (st : List FileItem × List String) (f : FileMeta) :
    List FileItem × List String :=
  if maxFileSize < f.size then
    (st.1, st.2 ++ [fileSizeNotice f.name])
  else if extOf f.name ∈ allowedExtensions then
    (st.1 ++ [{ file := f, status := .ready, progress := 0 }], st.2)
  else
    (st.1, st.2 ++ [fileTypeNotice f.name])

/-- `handleFiles(files)`: each offered file is size-checked, then
extension-checked, and appended to `selectedFiles` when both pass. -/
def handleFiles (files : List FileMeta) (selected : List FileItem) :
    List FileItem × List String :=
  files.foldl handleFile (selected, [])

/-- The acceptance condition `handleFiles` implements, as a single predicate. -/
def acceptFile (f : FileMeta) : Bool :=
  decide (f.size ≤ maxFileSize) && decide (extOf f.name ∈ allowedExtensions)

/-- The subscribe callbacks of `uploadNextFile` for one file: a `ready` file
becomes `uploaded` on success and `failed` on error; any other file is
skipped unchanged. `ok` is whether `uploadDocument` succeeded. -/
def uploadStep (ok : Bool) (f : FileItem) : FileItem :=
  if f.status = .ready then
    if ok then
      { f with status := .uploaded, message := some "Uploaded", progress := 100 }
    else
      { f with status := .failed, message := some "Failed to upload" }
  else f

/-- The sequential upload loop `uploadNextFile(0)`: position `j` of the list is
settled by the outcome of its own upload before the loop moves to `j+1`. -/
def runUploads (outcome : Nat → Bool) : Nat → List FileItem → List FileItem
  | _, [] => []
  | i, f :: rest => uploadStep (outcome i) f :: runUploads outcome (i + 1) rest

/-- `processingMessage` assigned when the loop terminates. -/
def completionMessage (files : List FileItem) : String :=
  "Successfully processed " ++
    toString (files.filter (fun f => decide (f.status = FileStatus.uploaded))).length
    ++ " files"

/-- `allFilesProcessed()`. -/
def allFilesProcessed (files : List FileItem) : Bool :=
  files.all (fun f =>
    decide (f.status = FileStatus.uploaded) || decide (f.status = FileStatus.failed))

/-- The fresh `FileItem` pushed onto `selectedFiles` for an accepted file. -/
def mkFileItem (f : FileMeta) : FileItem :=
  { file := f, status := .ready, progress := 0 }

/-- The snackbar notification `handleFiles` issues for a rejected file,
`none` when the file is accepted. -/
def rejectionNotice (f : FileMeta) : Option String :=
  if maxFileSize < f.size then some (fileSizeNotice f.name)
  else if extOf f.name ∈ allowedExtensions then none
  else some (fileTypeNotice f.name)

theorem acceptFile_iff_no_notice (f : FileMeta) :
    acceptFile f = true ↔ rejectionNotice f = none := by
  unfold acceptFile rejectionNotice
  by_cases hs : maxFileSize < f.size
  · simp [hs, Nat.not_le.mpr hs]
  · by_cases he : extOf f.name ∈ allowedExtensions
    · simp [hs, he, Nat.not_lt.mp hs]
    · simp [hs, he]

theorem handleFiles_foldl (files : List FileMeta) (sel : List FileItem)
    (ns : List String) :
    files.foldl handleFile (sel, ns) =
      (sel ++ (files.filter acceptFile).map mkFileItem,
       ns ++ files.filterMap rejectionNotice) := by
  induction files generalizing sel ns with
  | nil => simp
  | cons f fs ih =>
    by_cases hs : maxFileSize < f.size
    · have ha : acceptFile f = false := by
        simp [acceptFile, Nat.not_le.mpr hs]
      simp [List.foldl_cons, handleFile, if_pos hs, ih, List.filter_cons,
        ha, rejectionNotice, List.append_assoc]
    · by_cases he : extOf f.name ∈ allowedExtensions
      · have ha : acceptFile f = true := by
          simp [acceptFile, Nat.not_lt.mp hs, he]
        simp [List.foldl_cons, handleFile, if_neg hs, if_pos he, ih,
          List.filter_cons, ha, rejectionNotice, mkFileItem, List.append_assoc]
      · have ha : acceptFile f = false := by
          simp [acceptFile, he]
        simp [List.foldl_cons, handleFile, if_neg hs, if_neg he, ih,
          List.filter_cons, ha, rejectionNotice, List.append_assoc]

/-- C2 (amended): `handleFiles` accepts a file exactly when its size is at
most 200MB and its lowercased filename extension is one of
pdf, txt, doc, docx, csv; the decision reads only the filename and size
(never the file's bytes), and a rejected file is notified and never added. -/
theorem handleFiles_accepts_iff (files : List FileMeta) (sel : List FileItem) :
    (handleFiles files sel).1 = sel ++ (files.filter acceptFile).map mkFileItem
    ∧ (∀ f : FileMeta, acceptFile f =
        (decide (f.size ≤ maxFileSize) && decide (extOf f.name ∈ allowedExtensions)))
    ∧ (∀ f ∈ files, ∀ n : String, rejectionNotice f = some n →
        n ∈ (handleFiles files sel).2)
    ∧ (∀ f : FileMeta, acceptFile f = true ↔ rejectionNotice f = none) := by
  refine ⟨?_, fun f => rfl, ?_, fun f => acceptFile_iff_no_notice f⟩
  · rw [handleFiles, handleFiles_foldl]
  · intro f hf n hn
    rw [handleFiles, handleFiles_foldl]
    simp only [List.nil_append]
    exact List.mem_filterMap.mpr ⟨f, hf, hn⟩

/-- C2 counterexample: a file named `report.doc` is accepted by
`handleFiles` although its detected format `doc` is not among the four
formats PDF, DOCX, TXT, CSV that the claim says are the only accepted ones. -/
theorem handleFiles_doc_accepted :
    (handleFiles [⟨"report.doc", 1024⟩] []).1 = [mkFileItem ⟨"report.doc", 1024⟩]
    ∧ extOf "report.doc" = "doc"
    ∧ (["pdf", "docx", "txt", "csv"].contains "doc") = false := by
  refine ⟨?_, by decide, by decide⟩
  decide

theorem handleFiles_accepts_iff_witness :
    ((⟨"virus.exe", 5⟩ : FileMeta) ∈ [(⟨"virus.exe", 5⟩ : FileMeta)])
    ∧ rejectionNotice ⟨"virus.exe", 5⟩ = some (fileTypeNotice "virus.exe")
    ∧ fileTypeNotice "virus.exe" ∈ (handleFiles [⟨"virus.exe", 5⟩] []).2 :=
  ⟨by decide, by decide,
    (handleFiles_accepts_iff [⟨"virus.exe", 5⟩] []).2.2.1 ⟨"virus.exe", 5⟩
      (by decide) (fileTypeNotice "virus.exe") (by decide)⟩

theorem uploadStep_status (ok : Bool) (f : FileItem)
    (h : f.status ≠ FileStatus.processing) :
    (uploadStep ok f).status = FileStatus.uploaded
      ∨ (uploadStep ok f).status = FileStatus.failed := by
  unfold uploadStep
  cases hf : f.status with
  | ready => cases ok <;> simp
  | processing => exact absurd hf h
  | uploaded => simp [hf]
  | failed => simp [hf]

theorem runUploads_getElem (outcome : Nat → Bool) (files : List FileItem)
    (i j : Nat) :
    (runUploads outcome i files)[j]? =
      (files[j]?).map (uploadStep (outcome (i + j))) := by
  induction files generalizing i j with
  | nil => simp [runUploads]
  | cons f fs ih =>
    cases j with
    | zero => simp [runUploads]
    | succ k =>
      simp only [runUploads, List.getElem?_cons_succ]
      rw [ih (i + 1) k]
      ring_nf

theorem runUploads_mem (outcome : Nat → Bool) (files : List FileItem) (i : Nat)
    (g : FileItem) (hg : g ∈ runUploads outcome i files) :
    ∃ k f, f ∈ files ∧ g = uploadStep (outcome k) f := by
  induction files generalizing i with
  | nil => simp [runUploads] at hg
  | cons f fs ih =>
    simp only [runUploads, List.mem_cons] at hg
    rcases hg with hg | hg
    · exact ⟨i, f, List.mem_cons_self f fs, hg⟩
    · obtain ⟨k, f₀, hf₀, hk⟩ := ih (i + 1) hg
      exact ⟨k, f₀, List.mem_cons_of_mem f hf₀, hk⟩

/-- C9: the upload loop settles each position by its own outcome (a failure
never aborts the rest), terminates with every selected file `uploaded` or
`failed`, and the completion message counts exactly the uploaded files. -/
theorem uploadNextFile_containment (outcome : Nat → Bool) (files : List FileItem)
    (h : ∀ f ∈ files, f.status ≠ FileStatus.processing) :
    (runUploads outcome 0 files).length = files.length
    ∧ (∀ j : Nat, (runUploads outcome 0 files)[j]? =
        (files[j]?).map (uploadStep (outcome j)))
    ∧ (∀ g ∈ runUploads outcome 0 files,
        g.status = FileStatus.uploaded ∨ g.status = FileStatus.failed)
    ∧ allFilesProcessed (runUploads outcome 0 files) = true
    ∧ completionMessage (runUploads outcome 0 files) =
        "Successfully processed " ++
          toString ((runUploads outcome 0 files).countP
            (fun f => decide (f.status = FileStatus.uploaded))) ++ " files" := by
  have hlen : ∀ (i : Nat) (l : List FileItem),
      (runUploads outcome i l).length = l.length := by
    intro i l
    induction l generalizing i with
    | nil => rfl
    | cons f fs ih => simp [runUploads, ih]
  have hstatus : ∀ g ∈ runUploads outcome 0 files,
      g.status = FileStatus.uploaded ∨ g.status = FileStatus.failed := by
    intro g hg
    obtain ⟨k, f, hf, rfl⟩ := runUploads_mem outcome files 0 g hg
    exact uploadStep_status (outcome k) f (h f hf)
  refine ⟨hlen 0 files, fun j => by simpa using runUploads_getElem outcome files 0 j,
    hstatus, ?_, ?_⟩
  · unfold allFilesProcessed
    rw [List.all_eq_true]
    intro g hg
    rcases hstatus g hg with hu | hu <;> simp [hu]
  · unfold completionMessage
    rw [List.countP_eq_length_filter]

theorem uploadNextFile_containment_witness :
    (∀ f ∈ [mkFileItem ⟨"a.pdf", 10⟩, mkFileItem ⟨"b.txt", 20⟩],
      f.status ≠ FileStatus.processing)
    ∧ allFilesProcessed (runUploads (fun j => decide (j = 0)) 0
        [mkFileItem ⟨"a.pdf", 10⟩, mkFileItem ⟨"b.txt", 20⟩]) = true :=
  ⟨by decide,
    (uploadNextFile_containment (fun j => decide (j = 0))
      [mkFileItem ⟨"a.pdf", 10⟩, mkFileItem ⟨"b.txt", 20⟩] (by decide)).2.2.2.1⟩

/-- C10: a file is added to the selected-file list only if its size is at
most 200 × 1024 × 1024 bytes; an oversized file triggers the size
notification and is never added. -/
theorem handleFiles_size_limit (files : List FileMeta) (sel : List FileItem) :
    (∀ it ∈ (handleFiles files sel).1, it ∈ sel ∨ it.file.size ≤ maxFileSize)
    ∧ (∀ f ∈ files, maxFileSize < f.size →
        fileSizeNotice f.name ∈ (handleFiles files sel).2
        ∧ (handleFiles files sel).1.countP (fun it => decide (it.file = f)) =
            sel.countP (fun it => decide (it.file = f))) := by
  have hchar := handleFiles_foldl files sel []
  constructor
  · intro it hit
    rw [handleFiles, hchar] at hit
    rcases List.mem_append.mp hit with hit | hit
    · exact Or.inl hit
    · right
      obtain ⟨g, hg, rfl⟩ := List.mem_map.mp hit
      have := List.of_mem_filter hg
      simp only [acceptFile, Bool.and_eq_true, decide_eq_true_eq] at this
      simpa [mkFileItem] using this.1
  · intro f hf hsize
    have hnot : rejectionNotice f = some (fileSizeNotice f.name) := by
      simp [rejectionNotice, hsize]
    constructor
    · rw [handleFiles, hchar]
      simp only [List.nil_append]
      exact List.mem_filterMap.mpr ⟨f, hf, hnot⟩
    · rw [handleFiles, hchar]
      simp only [List.countP_append, Nat.add_eq_left]
      rw [List.countP_eq_length_filter, List.length_eq_zero]
      rw [List.filter_eq_nil_iff]
      intro it hit
      obtain ⟨g, hg, rfl⟩ := List.mem_map.mp hit
      have hacc := List.of_mem_filter hg
      simp only [acceptFile, Bool.and_eq_true, decide_eq_true_eq] at hacc
      simp only [mkFileItem, decide_eq_true_eq]
      intro hgf
      rw [hgf] at hacc
      exact absurd hacc.1 (Nat.not_le.mpr hsize)

theorem handleFiles_size_limit_witness :
    (maxFileSize < 209715201)
    ∧ fileSizeNotice "big.pdf" ∈ (handleFiles [⟨"big.pdf", 209715201⟩] []).2 :=
  ⟨by decide,
    ((handleFiles_size_limit [⟨"big.pdf", 209715201⟩] []).2 ⟨"big.pdf", 209715201⟩
      (by decide) (by decide)).1⟩

/-! ## Document model (document.model.ts)

`enum DocumentStatus` has exactly four members: PENDING = 'pending',
PROCESSING = 'processing', PROCESSED = 'processed', FAILED = 'failed'. -/

/-- `enum DocumentStatus` of document.model.ts. -/
inductive DocumentStatus
  | pending
  | processing
  | processed
  | failed
  deriving DecidableEq, Repr

/-- The string value each `DocumentStatus` member is declared with. -/
def DocumentStatus.value : DocumentStatus → String
  | .pending => "pending"
  | .processing => "processing"
  | .processed => "processed"
  | .failed => "failed"

/-- Modelled from the spec: the backend document state machine (the FastAPI
app referenced by the Dockerfile is not under the source tree). A processing
run advances a document through its lifecycle; the states are the four
members of the source's `DocumentStatus` enum, with the single intermediate
state `processing` in place of the spec's three stage states. `failed` is
reachable from any state. -/
inductive StatusStep : DocumentStatus → DocumentStatus → Prop
  | start : StatusStep .pending .processing
  | finish : StatusStep .processing .processed
  | fail (s : DocumentStatus) : StatusStep s .failed

/-- C1 counterexample: `processing` is a `DocumentStatus` member whose
declared value is not one of the six values the claim enumerates, and no
member carries the value `extracting`. -/
theorem documentStatus_counterexample :
    DocumentStatus.processing.value = "processing"
    ∧ (["pending", "extracting", "chunking", "embedding", "processed",
        "failed"].contains DocumentStatus.processing.value) = false
    ∧ ([DocumentStatus.pending, .processing, .processed,
        .failed].contains DocumentStatus.processing) = true := by
  refine ⟨rfl, by decide, by decide⟩

/-- C1 (amended): the `status` field takes exactly one of the four values
pending, processing, processed, failed (the enum is four-valued and its
values are pairwise distinct), and a processing run moves it only along
pending → processing → processed, with failed reachable from any state. -/
theorem documentStatus_states (s : DocumentStatus) :
    (s.value = "pending" ∨ s.value = "processing" ∨ s.value = "processed"
      ∨ s.value = "failed")
    ∧ (∀ t : DocumentStatus, s.value = t.value → s = t)
    ∧ (∀ t : DocumentStatus, StatusStep s t →
        t = DocumentStatus.failed
        ∨ (s = DocumentStatus.pending ∧ t = DocumentStatus.processing)
        ∨ (s = DocumentStatus.processing ∧ t = DocumentStatus.processed))
    ∧ StatusStep s DocumentStatus.failed := by
  refine ⟨by cases s <;> simp [DocumentStatus.value], ?_, ?_, StatusStep.fail s⟩
  · intro t hv
    cases s <;> cases t <;> first | rfl | (exact absurd hv (by decide))
  · intro t hst
    cases hst with
    | start => exact Or.inr (Or.inl ⟨rfl, rfl⟩)
    | finish => exact Or.inr (Or.inr ⟨rfl, rfl⟩)
    | fail => exact Or.inl rfl

theorem documentStatus_states_witness :
    DocumentStatus.pending.value = "pending"
    ∧ StatusStep DocumentStatus.pending DocumentStatus.failed :=
  ⟨by
    rcases (documentStatus_states DocumentStatus.pending).1 with h | h | h | h
    · exact h
    all_goals exact absurd h (by decide),
   (documentStatus_states DocumentStatus.pending).2.2.2⟩

/-- `interface Document` of document.model.ts (the fields the verified
components read), with `status` taken from the `DocumentStatus` enum. -/
structure Document where
  id : String
  filename : String
  file_size : Nat
  file_type : String
  status : DocumentStatus
  processing_progress : Option ℚ := none
  deriving DecidableEq

/-! ## Reprocess handler (document-table / document-list components)

Both `reprocessDocument(document)` bodies are
`console.log('Reprocessing document:', document); // Implement reprocessing logic` —
they log and change nothing. -/

/-- Component state visible to `reprocessDocument`: the document rows and the
console log. -/
structure TableState where
  documents : List Document
  logs : List String
  deriving DecidableEq

/-- `reprocessDocument(document)` of document-table.component.ts (identical in
the document-list component): logs and leaves every document untouched. -/
def reprocessDocument (doc : Document) (st : TableState) : TableState :=
  { st with logs := st.logs ++ ["Reprocessing document:" ++ " " ++ doc.filename] }

/-- C5: evaluating the reprocess handler. It never changes any document, so a
`processed` or `failed` document is not reset to `pending`: the handler is an
unimplemented stub. -/
theorem reprocessDocument_noop (doc : Document) (st : TableState) :
    (reprocessDocument doc st).documents = st.documents := rfl

/-! ## DocumentService.deleteDocument (core document service)

On success the `tap` removes the document from the `documents`
BehaviorSubject and clears `currentDocument` exactly when it held the
deleted id. -/

/-- The `DocumentService` state the delete pipeline mutates. -/
structure ServiceState where
  documents : List Document
  currentDocument : Option Document
  deriving DecidableEq

/-- `deleteDocument(id)`'s success `tap` of the document service:
`documents.filter(doc => doc.id !== id)` and the conditional
`currentDocument.next(null)`. -/
def deleteDocument (id : String) (st : ServiceState) : ServiceState :=
  { documents := st.documents.filter (fun d => decide (d.id ≠ id)),
    currentDocument :=
      match st.currentDocument with
      | some d => if d.id = id then none else some d
      | none => none }

/-- Modelled from the spec: the backend cascade of `DeleteDocument` to the
document's chunks and vectors in the vector index (the FastAPI backend is
not under the source tree). Each index entry is keyed by a chunk id that
records its owning document. -/
structure ChunkId where
  docId : String
  idx : Nat
  deriving DecidableEq, Repr

/-- Modelled from the spec: deleting a document removes every vector whose
chunk id belongs to it. -/
def deleteDocVectors (id : String) (index : List (ChunkId × ℚ)) :
    List (ChunkId × ℚ) :=
  index.filter (fun e => decide (e.1.docId ≠ id))

/-- C6: after `deleteDocument id` the document with that id is gone, every
other document survives unchanged, the current-document reference is cleared
exactly when it referred to the deleted id, and the cascade leaves no vector
of the deleted document while keeping all others. -/
theorem deleteDocument_frame (id : String) (st : ServiceState)
    (index : List (ChunkId × ℚ)) :
    (∀ d ∈ (deleteDocument id st).documents, d.id ≠ id)
    ∧ (∀ d ∈ st.documents, d.id ≠ id → d ∈ (deleteDocument id st).documents)
    ∧ (∀ d ∈ (deleteDocument id st).documents, d ∈ st.documents)
    ∧ ((deleteDocument id st).currentDocument = none ↔
        (st.currentDocument = none
          ∨ ∃ d, st.currentDocument = some d ∧ d.id = id))
    ∧ (∀ d, st.currentDocument = some d → d.id ≠ id →
        (deleteDocument id st).currentDocument = some d)
    ∧ (∀ e ∈ deleteDocVectors id index, e.1.docId ≠ id)
    ∧ (∀ e ∈ index, e.1.docId ≠ id → e ∈ deleteDocVectors id index) := by
  refine ⟨?_, ?_, ?_, ?_, ?_, ?_, ?_⟩
  · intro d hd
    have := List.of_mem_filter hd
    simpa using this
  · intro d hd hne
    exact List.mem_filter.mpr ⟨hd, by simpa using hne⟩
  · intro d hd
    exact List.mem_of_mem_filter hd
  · unfold deleteDocument
    cases hc : st.currentDocument with
    | none => simp
    | some d =>
      by_cases hid : d.id = id
      · simp [hid]
      · simp [hid]
  · intro d hd hne
    unfold deleteDocument
    simp only [hd, if_neg hne]
  · intro e he
    have := List.of_mem_filter he
    simpa using this
  · intro e he hne
    exact List.mem_filter.mpr ⟨he, by simpa using hne⟩

/-- A concrete processed document used as witness input. -/
def sampleDoc : Document :=
  { id := "d1", filename := "a.pdf", file_size := 1, file_type := "pdf",
    status := DocumentStatus.processed }

/-- A concrete service state whose current document is `sampleDoc`. -/
def sampleState : ServiceState :=
  { documents := [sampleDoc], currentDocument := some sampleDoc }

theorem deleteDocument_frame_witness :
    (deleteDocument "d1" sampleState).currentDocument = none :=
  (deleteDocument_frame "d1" sampleState []).2.2.2.1.mpr
    (Or.inr ⟨sampleDoc, rfl, rfl⟩)

/-! ## Progress column (document-table.component.ts)

`const progress = params.value || 0; const percentage = Math.round(progress * 100);` -/

/-- The progress-column cell renderer of document-table.component.ts:
`Math.round((params.value || 0) * 100)`, with JS `Math.round x = ⌊x + 0.5⌋`. -/
def renderedPercentage (progress : Option ℚ) : ℤ :=
  ⌊(progress.getD 0) * 100 + 1 / 2⌋

/-- Modelled from the spec: the backend maintains `processing_progress` in
[0, 1] and each stage only advances it forward within a run (the FastAPI
backend is not under the source tree). A run is the sequence of progress
values a document reports during one processing attempt. -/
def ValidRun (run : List ℚ) : Prop :=
  (∀ p ∈ run, 0 ≤ p ∧ p ≤ 1) ∧ run.Chain' (· ≤ ·)

/-- C7: along a valid run the displayed percentage is `round (progress * 100)`,
stays within 0–100, never moves backward, and an absent value renders as 0. -/
theorem progress_rendering (run : List ℚ) (h : ValidRun run) :
    renderedPercentage none = 0
    ∧ (∀ p : ℚ, renderedPercentage (some p) = round (p * 100))
    ∧ (∀ p ∈ run, 0 ≤ renderedPercentage (some p)
        ∧ renderedPercentage (some p) ≤ 100)
    ∧ (run.map (fun p => renderedPercentage (some p))).Chain' (· ≤ ·) := by
  have hmono : ∀ p q : ℚ, p ≤ q →
      renderedPercentage (some p) ≤ renderedPercentage (some q) := by
    intro p q hpq
    unfold renderedPercentage
    apply Int.floor_le_floor
    simp only [Option.getD_some]
    linarith
  refine ⟨?_, ?_, ?_, ?_⟩
  · unfold renderedPercentage
    norm_num
  · intro p
    rw [round_eq]
    rfl
  · intro p hp
    obtain ⟨h0, h1⟩ := h.1 p hp
    constructor
    · unfold renderedPercentage
      rw [Int.le_floor]
      simp only [Option.getD_some]
      push_cast
      linarith
    · unfold renderedPercentage
      have : (⌊(some p).getD 0 * 100 + 1 / 2⌋ : ℤ) < 101 := by
        rw [Int.floor_lt]
        simp only [Option.getD_some]
        push_cast
        linarith
      omega
  · rw [List.chain'_map]
    exact List.Chain'.imp (fun a b hab => hmono a b hab) h.2

theorem progress_rendering_witness :
    ValidRun [0, 1]
    ∧ renderedPercentage none = 0 :=
  ⟨⟨by intro p hp; fin_cases hp <;> norm_num,
     by norm_num [List.chain'_cons]⟩,
   (progress_rendering [0, 1]
      ⟨by intro p hp; fin_cases hp <;> norm_num,
       by norm_num [List.chain'_cons]⟩).1⟩

/-! ## Chat storage (chat-storage.service.ts)

`saveSessions` serializes every `Date` with `toISOString()` and writes the
JSON under `chat_sessions`; `loadSessions` parses the stored value back,
returning `[]` when the key is absent or `JSON.parse` throws. -/

/-- A JS `Date`: its millisecond timestamp, which `toISOString` preserves
exactly and `new Date(isoString)` restores exactly. -/
structure JsDate where
  millis : Int
  deriving DecidableEq, Repr

/-- The ISO-8601 string `Date.prototype.toISOString` produces; it determines
and is determined by the millisecond timestamp. -/
structure IsoString where
  millis : Int
  deriving DecidableEq, Repr

/-- `date.toISOString()`. -/
def JsDate.toISOString (d : JsDate) : IsoString := ⟨d.millis⟩

/-- `new Date(isoString)`. -/
def dateOfIso (s : IsoString) : JsDate := ⟨s.millis⟩

/-- `interface ChatMessage` of chat.types.ts. -/
structure ChatMessage where
  content : String
  isUser : Bool
  timestamp : JsDate
  deriving DecidableEq

/-- `interface ChatSession` of chat.types.ts. -/
structure ChatSession where
  id : String
  created : JsDate
  messages : List ChatMessage
  lastMessageTime : Option JsDate
  title : Option String
  deriving DecidableEq

/-- A chat message as it sits in localStorage: the timestamp is an ISO string. -/
structure StoredMessage where
  content : String
  isUser : Bool
  timestamp : IsoString
  deriving DecidableEq

/-- A chat session as it sits in localStorage. -/
structure StoredSession where
  id : String
  created : IsoString
  messages : List StoredMessage
  lastMessageTime : Option IsoString
  title : Option String
  deriving DecidableEq

/-- What `localStorage.getItem('chat_sessions')` can hold: a JSON string
that parses to a session list, or one `JSON.parse` rejects. -/
inductive StoredValue
  | malformed
  | wellFormed (sessions : List StoredSession)
  deriving DecidableEq

/-- The message part of the `sessions.map` serializer in `saveSessions`. -/
def serializeMessage (m : ChatMessage) : StoredMessage :=
  ⟨m.content, m.isUser, m.timestamp.toISOString⟩

/-- The session part of the `sessions.map` serializer in `saveSessions`. -/
def serializeSession (s : ChatSession) : StoredSession :=
  ⟨s.id, s.created.toISOString, s.messages.map serializeMessage,
   s.lastMessageTime.map JsDate.toISOString, s.title⟩

/-- `saveSessions(sessions)`: the value left under the storage key. -/
def saveSessions (sessions : List ChatSession) : Option StoredValue :=
  some (.wellFormed (sessions.map serializeSession))

/-- The message part of the `parsedSessions.map` deserializer in `loadSessions`. -/
def deserializeMessage (m : StoredMessage) : ChatMessage :=
  ⟨m.content, m.isUser, dateOfIso m.timestamp⟩

/-- The session part of the `parsedSessions.map` deserializer in `loadSessions`. -/
def deserializeSession (s : StoredSession) : ChatSession :=
  ⟨s.id, dateOfIso s.created, s.messages.map deserializeMessage,
   s.lastMessageTime.map dateOfIso, s.title⟩

/-- `loadSessions()`: `[]` when the key is absent, `[]` when `JSON.parse`
throws (the catch branch), and the deserialized list otherwise. -/
def loadSessions : Option StoredValue → List ChatSession
  | none => []
  | some .malformed => []
  | some (.wellFormed l) => l.map deserializeSession

theorem deserialize_serialize_message (m : ChatMessage) :
    deserializeMessage (serializeMessage m) = m := rfl

theorem deserialize_serialize_session (s : ChatSession) :
    deserializeSession (serializeSession s) = s := by
  cases s with
  | mk sid created messages lastMessageTime title =>
    have h1 : (messages.map serializeMessage).map deserializeMessage
        = messages := by
      rw [List.map_map]
      calc messages.map (deserializeMessage ∘ serializeMessage)
          = messages.map id := by
            apply List.map_congr_left
            intro m _
            exact deserialize_serialize_message m
        _ = messages := List.map_id messages
    have h2 : (lastMessageTime.map JsDate.toISOString).map dateOfIso
        = lastMessageTime := by
      cases lastMessageTime <;> rfl
    have h3 : dateOfIso created.toISOString = created := rfl
    simp [serializeSession, deserializeSession, h1, h2, h3]

/-- C8: `loadSessions` after `saveSessions` returns a structurally equal
session list (all timestamps survive the ISO round-trip), and an absent or
unparsable stored value loads as the empty list. -/
theorem loadSessions_saveSessions (sessions : List ChatSession) :
    loadSessions (saveSessions sessions) = sessions
    ∧ loadSessions none = []
    ∧ loadSessions (some StoredValue.malformed) = [] := by
  refine ⟨?_, rfl, rfl⟩
  show (sessions.map serializeSession).map deserializeSession = sessions
  rw [List.map_map]
  calc sessions.map (deserializeSession ∘ serializeSession)
      = sessions.map id := by
        apply List.map_congr_left
        intro s _
        exact deserialize_serialize_session s
    _ = sessions := List.map_id sessions

/-! ## Ingestion pipeline (ProcessDocument) and retrieval (Retrieve)

The FastAPI backend implementing them is not under the source tree; both are
modelled from the specification (§4.2, §4.3, §4.5, §8). -/

/-- Modelled from the spec: the Chunker cuts a prose unit into chunks of
`target` characters, carrying `overlap` characters into the next chunk's
start; a unit no longer than `target` is never split, and a degenerate
configuration (`overlap ≥ target`) yields the unit whole rather than looping. -/
def chunkChars (target overlap : Nat) (cs : List Char) : List (List Char) :=
  if h : cs.length ≤ target ∨ target ≤ overlap then [cs]
  else
    cs.take target :: chunkChars target overlap (cs.drop (target - overlap))
termination_by cs.length
decreasing_by
  push_neg at h
  rw [List.length_drop]
  omega

/-- Modelled from the spec: chunk ids are derived deterministically from the
document id plus the chunk's sequence index. -/
def chunksOf (docId : String) (text : String) (target overlap : Nat) :
    List (ChunkId × List Char) :=
  (chunkChars target overlap text.data).enum.map
    (fun p => (⟨docId, p.1⟩, p.2))

/-- Modelled from the spec: `VectorIndex.Upsert(chunkId, vector, metadata)`
keyed by chunk id — an existing key is overwritten in place, a new key is
appended. -/
def upsert {α : Type} (k : ChunkId) (v : α) :
    List (ChunkId × α) → List (ChunkId × α)
  | [] => [(k, v)]
  | e :: rest => if e.1 = k then (k, v) :: rest else e :: upsert k v rest

/-- Upserting a batch of entries in order. -/
def upsertAll {α : Type} (entries : List (ChunkId × α))
    (index : List (ChunkId × α)) : List (ChunkId × α) :=
  entries.foldl (fun acc e => upsert e.1 e.2 acc) index

/-- Modelled from the spec: `ProcessDocument` chunks the extracted text,
embeds each chunk, deletes the previous run's chunk ids for the document,
and upserts the new entries keyed by their deterministic chunk ids. -/
def processDocument {α : Type} (embed : List Char → α) (docId : String)
    (text : String) (target overlap : Nat) (index : List (ChunkId × α)) :
    List (ChunkId × α) :=
  upsertAll
    ((chunksOf docId text target overlap).map (fun p => (p.1, embed p.2)))
    (index.filter (fun e => decide (e.1.docId ≠ docId)))

theorem upsert_of_not_mem {α : Type} (k : ChunkId) (v : α)
    (index : List (ChunkId × α)) (h : k ∉ index.map Prod.fst) :
    upsert k v index = index ++ [(k, v)] := by
  induction index with
  | nil => rfl
  | cons e rest ih =>
    simp only [List.map_cons, List.mem_cons] at h
    push_neg at h
    have hne : ¬ (e.1 = k) := fun he => h.1 he.symm
    simp only [upsert, if_neg hne, ih h.2, List.cons_append]


theorem upsertAll_disjoint {α : Type} (entries index : List (ChunkId × α))
    (hd : ∀ k ∈ entries.map Prod.fst, k ∉ index.map Prod.fst)
    (hn : (entries.map Prod.fst).Nodup) :
    upsertAll entries index = index ++ entries := by
  induction entries generalizing index with
  | nil => simp [upsertAll]
  | cons e rest ih =>
    simp only [List.map_cons, List.nodup_cons] at hn
    have he : e.1 ∉ index.map Prod.fst := hd e.1 (by simp)
    show upsertAll rest (upsert e.1 e.2 index) = index ++ e :: rest
    rw [upsert_of_not_mem e.1 e.2 index he, ih]
    · simp
    · intro k hk
      simp only [List.map_append, List.mem_append]
      push_neg
      refine ⟨fun hki => hd k (by simp [hk]) hki, ?_⟩
      simp only [List.map_cons, List.map_nil, List.mem_singleton]
      intro hke
      rw [hke] at hk
      exact hn.1 hk
    · exact hn.2

theorem chunkIds_nodup (docId : String) (text : String) (target overlap : Nat) :
    ((chunksOf docId text target overlap).map Prod.fst).Nodup
    ∧ ∀ k ∈ (chunksOf docId text target overlap).map Prod.fst,
        k.docId = docId := by
  constructor
  · unfold chunksOf
    rw [List.map_map]
    have hcomp : (Prod.fst ∘ fun p : Nat × List Char =>
        ((⟨docId, p.1⟩ : ChunkId), p.2))
        = (fun i => (⟨docId, i⟩ : ChunkId)) ∘ Prod.fst := rfl
    rw [hcomp, ← List.map_map, List.enum_map_fst]
    apply List.Nodup.map
    · intro a b hab
      simpa [ChunkId.mk.injEq] using hab
    · exact List.nodup_range _
  · intro k hk
    unfold chunksOf at hk
    rw [List.map_map] at hk
    obtain ⟨p, _, rfl⟩ := List.mem_map.mp hk
    rfl

/-- C3: re-running `ProcessDocument` on byte-identical input is a no-op —
the index after the second run equals the index after the first (hence the
chunk id set is identical), and the index never holds two vectors under the
same chunk id. -/
theorem processDocument_idempotent {α : Type} (embed : List Char → α)
    (docId : String) (text : String) (target overlap : Nat)
    (index : List (ChunkId × α)) (h : (index.map Prod.fst).Nodup) :
    processDocument embed docId text target overlap
        (processDocument embed docId text target overlap index)
      = processDocument embed docId text target overlap index
    ∧ ((processDocument embed docId text target overlap index).map
        Prod.fst).Nodup := by
  set entries :=
    (chunksOf docId text target overlap).map (fun p => (p.1, embed p.2)) with hent
  have hkeys : entries.map Prod.fst
      = (chunksOf docId text target overlap).map Prod.fst := by
    rw [hent, List.map_map]
    rfl
  have hids := chunkIds_nodup docId text target overlap
  have hnodupE : (entries.map Prod.fst).Nodup := by rw [hkeys]; exact hids.1
  have hdocE : ∀ k ∈ entries.map Prod.fst, k.docId = docId := by
    rw [hkeys]; exact hids.2
  set F := index.filter (fun e => decide (e.1.docId ≠ docId)) with hF
  have hFdoc : ∀ k ∈ F.map Prod.fst, k.docId ≠ docId := by
    intro k hk
    obtain ⟨e, he, rfl⟩ := List.mem_map.mp hk
    have := List.of_mem_filter he
    simpa using this
  have hdisj : ∀ k ∈ entries.map Prod.fst, k ∉ F.map Prod.fst := by
    intro k hk hkF
    exact hFdoc k hkF (hdocE k hk)
  have hrun : processDocument embed docId text target overlap index
      = F ++ entries := by
    unfold processDocument
    exact upsertAll_disjoint entries F hdisj hnodupE
  have hFnodup : (F.map Prod.fst).Nodup := by
    apply List.Nodup.sublist _ h
    exact List.Sublist.map Prod.fst (List.filter_sublist index)
  constructor
  · conv_lhs => rw [hrun]
    unfold processDocument
    have hfilter : (F ++ entries).filter
        (fun e => decide (e.1.docId ≠ docId)) = F := by
      rw [List.filter_append]
      have h1 : F.filter (fun e => decide (e.1.docId ≠ docId)) = F :=
        List.filter_eq_self.mpr (fun e he => by
          simpa using hFdoc e.1 (List.mem_map_of_mem Prod.fst he))
      have h2 : entries.filter (fun e => decide (e.1.docId ≠ docId)) = [] :=
        List.filter_eq_nil_iff.mpr (fun e he => by
          simpa using hdocE e.1 (List.mem_map_of_mem Prod.fst he))
      rw [h1, h2, List.append_nil]
    rw [hfilter]
  · rw [hrun, List.map_append, List.nodup_append]
    refine ⟨hFnodup, hnodupE, ?_⟩
    intro k hkF hkE
    exact hdisj k hkE hkF

theorem processDocument_idempotent_witness :
    ((([] : List (ChunkId × ℚ)).map Prod.fst).Nodup)
    ∧ ((processDocument (fun cs => (cs.length : ℚ)) "d1" "hello" 3 1
          []).map Prod.fst).Nodup :=
  ⟨by simp,
   (processDocument_idempotent (fun cs => (cs.length : ℚ)) "d1" "hello" 3 1
      [] (by simp)).2⟩

/-- Modelled from the spec: the Retriever's descending-similarity ranking,
as insertion into an already ranked list. -/
def insertRanked {α : Type} (e : α × ℚ) : List (α × ℚ) → List (α × ℚ)
  | [] => [e]
  | x :: xs => if x.2 < e.2 then e :: x :: xs else x :: insertRanked e xs

/-- Ranking a scored chunk list by descending similarity. -/
def rankChunks {α : Type} (l : List (α × ℚ)) : List (α × ℚ) :=
  l.foldr insertRanked []

/-- Modelled from the spec: `Retrieve(queryText, allowedDocIds, topK)` —
the query embedding is compared against the index restricted to the allowed
document ids and to documents whose status is `processed`; results are
ranked by similarity, cut at the minimum-similarity threshold, and capped
at `topK`. -/
def retrieve {α : Type} (sim : α → α → ℚ) (qv : α) (allowed : List String)
    (docStatus : String → DocumentStatus) (topK : Nat) (threshold : ℚ)
    (index : List (ChunkId × α)) : List (ChunkId × ℚ) :=
  let candidates := index.filter (fun e =>
    decide (e.1.docId ∈ allowed) && decide (docStatus e.1.docId = .processed))
  let scored := candidates.map (fun e => (e.1, sim qv e.2))
  ((rankChunks scored).filter (fun e => decide (threshold ≤ e.2))).take topK

theorem mem_insertRanked {α : Type} (e a : α × ℚ) (l : List (α × ℚ)) :
    a ∈ insertRanked e l ↔ a = e ∨ a ∈ l := by
  induction l with
  | nil => simp [insertRanked]
  | cons x xs ih =>
    unfold insertRanked
    by_cases hx : x.2 < e.2
    · simp [hx]
    · simp only [if_neg hx, List.mem_cons, ih]
      tauto

theorem mem_rankChunks {α : Type} (a : α × ℚ) (l : List (α × ℚ)) :
    a ∈ rankChunks l ↔ a ∈ l := by
  induction l with
  | nil => simp [rankChunks]
  | cons x xs ih =>
    show a ∈ insertRanked x (rankChunks xs) ↔ _
    rw [mem_insertRanked]
    simp [ih]

/-- C4: every chunk returned by `Retrieve` belongs to an allowed document id
and to a document whose status is `processed`. -/
theorem retrieve_scoped {α : Type} (sim : α → α → ℚ) (qv : α)
    (allowed : List String) (docStatus : String → DocumentStatus)
    (topK : Nat) (threshold : ℚ) (index : List (ChunkId × α)) :
    ∀ r ∈ retrieve sim qv allowed docStatus topK threshold index,
      r.1.docId ∈ allowed ∧ docStatus r.1.docId = DocumentStatus.processed := by
  intro r hr
  unfold retrieve at hr
  have hr1 := List.mem_of_mem_take hr
  have hr2 := List.mem_of_mem_filter hr1
  rw [mem_rankChunks] at hr2
  obtain ⟨e, he, heq⟩ := List.mem_map.mp hr2
  have hef := List.of_mem_filter he
  simp only [Bool.and_eq_true, decide_eq_true_eq] at hef
  have : r.1 = e.1 := by rw [← heq]
  rw [this]
  exact hef

theorem retrieve_scoped_witness :
    ((⟨"d1", 0⟩, (1 : ℚ)) ∈ retrieve (fun _ _ => (1 : ℚ)) (1 : ℚ) ["d1"]
        (fun d => if d = "d1" then DocumentStatus.processed
          else DocumentStatus.pending) 5 0 [((⟨"d1", 0⟩ : ChunkId), (1 : ℚ))])
    ∧ (⟨"d1", 0⟩ : ChunkId).docId ∈ ["d1"] :=
  ⟨by simp [retrieve, rankChunks, insertRanked],
   (retrieve_scoped (fun _ _ => (1 : ℚ)) (1 : ℚ) ["d1"]
      (fun d => if d = "d1" then DocumentStatus.processed
        else DocumentStatus.pending) 5 0 [((⟨"d1", 0⟩ : ChunkId), (1 : ℚ))]
      (⟨"d1", 0⟩, (1 : ℚ))
      (by simp [retrieve, rankChunks, insertRanked])).1⟩

end Alchemist
